import Mathlib

/-!
Verification of the semantic-search core: shallow embeddings of the vector
utilities (`normalize`, `cosine`, `toFloat32Blob` / `fromFloat32Blob` from
`utils.ts`), the sqlite-vec-backed `SqliteStore` (`upsert`, `getById`,
`getByPath`), the indexing orchestrator (`SemanticStore.indexFile`,
`SemanticStore.indexPath`, `shouldProcessFile`) and the retrieval/rerank
pipeline (`rerank` from `nlp.ts`, `SemanticStore.search`), together with
proofs of the specified properties.

Numbers are modelled exactly: finite JavaScript numbers as rationals (reals
where a square root occurs), with the IEEE-754 non-finite values `NaN` and
`±Infinity` represented explicitly where the code inspects them.
-/

namespace SemanticSearch

/-- A JavaScript number as inspected by the store's validation code: a finite
value (modelled as an exact rational) or one of the IEEE-754 non-finite
values `NaN`, `Infinity`, `-Infinity`. -/
inductive JsNum where
  | finite (q : ℚ)
  | nan
  | posInf
  | negInf
deriving DecidableEq

/-- Model of `isNaN(n)` applied to a number (no string coercion involved):
true exactly on `NaN`. -/
def JsNum.isNaN : JsNum → Bool
  | .nan => true
  | _ => false

/-- Model of `Number.isFinite(n)`: true exactly on finite values. -/
def JsNum.isFinite : JsNum → Bool
  | .finite _ => true
  | _ => false

/-- Model of `JSON.stringify` applied to one number inside an array:
finite values serialize to themselves, `NaN` and `±Infinity` become `null`
(modelled as `none`). -/
def JsNum.toJson : JsNum → Option ℚ
  | .finite q => some q
  | _ => none

/-- Model of `cosine` from `utils.ts`: the loop sums `a[i] * b[i]` for
`i` below `min(a.length, b.length)`, which is exactly the sum of the
pointwise products of the zipped lists. -/
def cosine (a b : List ℚ) : ℚ :=
  (List.zipWith (fun x y => x * y) a b).sum

/-- The reduction `v.reduce((s, x) => s + x * x, 0)` inside `normalize`. -/
def sumSq (v : List ℝ) : ℝ :=
  v.foldl (fun s x => s + x * x) 0

/-- Model of `normalize` from `utils.ts`:
`const norm = Math.sqrt(v.reduce((s, x) => s + x * x, 0)) || 1` — the
`|| 1` replaces a zero (falsy) norm by `1` — then `v.map((x) => x / norm)`.
Real arithmetic models the idealized (tolerance-free) behaviour. -/
noncomputable def normalize (v : List ℝ) : List ℝ :=
  v.map (fun x => x / (if Real.sqrt (sumSq v) = 0 then 1 else Real.sqrt (sumSq v)))

/-- Round-half-to-even to the nearest integer, the rounding used by IEEE-754
conversion to `float32`. -/
def roundHalfEven (q : ℚ) : ℤ :=
  if q - ⌊q⌋ < 1/2 then ⌊q⌋
  else if 1/2 < q - ⌊q⌋ then ⌊q⌋ + 1
  else if Even ⌊q⌋ then ⌊q⌋ else ⌊q⌋ + 1

/-- IEEE-754 binary32 rounding of a finite double, as performed per element
by `new Float32Array(vec)`: the value is rounded half-to-even onto the grid
of spacing `2 ^ max (e - 23) (-149)` where `2 ^ e ≤ |x| < 2 ^ (e + 1)`
(the `-149` floor covers the subnormal range).  Overflow to `Infinity`
(|x| ≥ 2^128) is outside the range used by the theorems below. -/
def float32Round (x : ℚ) : ℚ :=
  if x = 0 then 0
  else
    (2 : ℚ) ^ max (Int.log 2 |x| - 23) (-149) *
      roundHalfEven (x / (2 : ℚ) ^ max (Int.log 2 |x| - 23) (-149))

/-- A binary blob of IEEE-754 binary32 values: the byte `Buffer` produced by
`toFloat32Blob`, viewed at the granularity the code reads it back
(4 bytes per stored float32 value). -/
structure Float32Blob where
  data : List ℚ
deriving DecidableEq

/-- The `byteLength` of the blob: 4 bytes per float32 element. -/
def Float32Blob.byteLength (b : Float32Blob) : ℕ :=
  4 * b.data.length

/-- Model of `toFloat32Blob` from `utils.ts`: each double is converted to
binary32 (`new Float32Array(vec)`) and the backing bytes become the blob. -/
def toFloat32Blob (vec : List ℚ) : Float32Blob :=
  ⟨vec.map float32Round⟩

/-- Model of `fromFloat32Blob` from `utils.ts` with the `dim` argument
omitted: reads `⌊byteLength / 4⌋` float32 values; widening float32 →
float64 is exact, so the stored values are returned unchanged. -/
def fromFloat32Blob (b : Float32Blob) : List ℚ :=
  b.data.take (b.byteLength / 4)

/-- The metadata block of a `FileRecord` (`FileMetadata` in `types.ts`).
The `mimetype` column is elided: it is derived by the external `mime-types`
package and never read by the verified operations. -/
structure FileMeta where
  id : String
  path : String
  filename : String
  size : Int
  createdAt : String
  modifiedAt : String
deriving DecidableEq

/-- One row of the primary `files` table of the sqlite-vec `SqliteStore`
(id, path, filename, size, createdAt, modifiedAt, summary; the embedding
lives in the separate `vec_files` table). -/
structure FileRow where
  id : String
  path : String
  filename : String
  size : Int
  createdAt : String
  modifiedAt : String
  summary : String
deriving DecidableEq

/-- The metadata view of a row, as assembled by `rowToRecord`. -/
def FileRow.meta (r : FileRow) : FileMeta :=
  ⟨r.id, r.path, r.filename, r.size, r.createdAt, r.modifiedAt⟩

/-- A `FileRecord` as passed to `SqliteStore.upsert` (`types.ts`):
metadata + summary + embedding. -/
structure FileRecord where
  id : String
  metadata : FileMeta
  summary : String
  embedding : List JsNum
deriving DecidableEq

/-- State of the sqlite-vec-backed `SqliteStore`: the rows of the primary
`files` table in insertion (rowid) order, the dimension of the `vec_files`
virtual table once created, its rows (id paired with the JSON-decoded
embedding, where non-finite values have degraded to `null`), and the
per-process `vectorTableReady` flag. -/
structure DbState where
  files : List FileRow
  vecDim : Option ℕ
  vecRows : List (String × List (Option ℚ))
  vectorTableReady : Bool
deriving DecidableEq

/-- Model of `SqliteStore.ensureVectorTable`: on the first upsert of a
process (`vectorTableReady = false`) the `vec_files` table is dropped and
recreated with the given dimension, discarding any prior vector rows;
afterwards it is a no-op. -/
def ensureVectorTable (st : DbState) (dim : ℕ) : DbState :=
  if st.vectorTableReady then st
  else { st with vecDim := some dim, vecRows := [], vectorTableReady := true }

/-- The `files` row written by `upsert` for a record: the SQL statement
binds `id` to `record.id` and the remaining columns to the metadata fields
and the summary. -/
def rowOfRecord (rec : FileRecord) : FileRow :=
  ⟨rec.id, rec.metadata.path, rec.metadata.filename, rec.metadata.size,
    rec.metadata.createdAt, rec.metadata.modifiedAt, rec.summary⟩

/-- Model of `SqliteStore.upsert` (sqlite-vec variant): validates the
embedding (`length === 0` → throw; `!embedding.every(n => typeof n ===
'number' && !isNaN(n))` → throw — note only `NaN` is rejected), then
ensures the vector table, then `INSERT ... ON CONFLICT(id) DO UPDATE` on
`files` (replace the row with this id, else append), then delete + insert
of the `vec_files` row for this id with the JSON-serialized embedding.
A thrown error is modelled as `Except.error`; it occurs before any write.
Since `ensureVectorTable` never changes `files`, the row update is written
on `st.files` directly. -/
def upsert (st : DbState) (rec : FileRecord) : Except String DbState :=
  if rec.embedding.length = 0 then
    .error "Invalid embedding data: must be non-empty array"
  else if !(rec.embedding.all fun n => !n.isNaN) then
    .error "Embedding contains invalid values: all elements must be numbers"
  else
    .ok { ensureVectorTable st rec.embedding.length with
      files :=
        if st.files.any (fun r => r.id == rec.id) then
          st.files.map (fun r => if r.id == rec.id then rowOfRecord rec else r)
        else
          st.files ++ [rowOfRecord rec]
      vecRows :=
        ((ensureVectorTable st rec.embedding.length).vecRows.filter
          (fun v => v.1 != rec.id)) ++
          [(rec.id, rec.embedding.map JsNum.toJson)] }

/-- Model of `SqliteStore.getById`: first `files` row with this id. -/
def getById (st : DbState) (id : String) : Option FileRow :=
  st.files.find? (fun r => r.id == id)

/-- Model of `SqliteStore.getByPath`: first `files` row with this path. -/
def getByPath (st : DbState) (p : String) : Option FileRow :=
  st.files.find? (fun r => r.path == p)

/-- The ids of the stored rows, in table order (`id` is the primary key, so
a well-formed database has no duplicates). -/
def ids (st : DbState) : List String :=
  st.files.map FileRow.id

/-- The paths of the stored rows, in table order. -/
def allPaths (st : DbState) : List String :=
  st.files.map FileRow.path

/-- Well-formedness of the database: ids are unique (SQL primary key) and
paths are unique (the spec's one-record-per-path invariant). -/
def Inv (st : DbState) : Prop :=
  (ids st).Nodup ∧ (allPaths st).Nodup

/-- The per-file data `SemanticStore.indexFile` consumes besides the store:
the fresh uuid it would mint if the path is new, the provider's summary and
(already normalized) embedding, and the `fs.stat` fields it copies into the
metadata. -/
structure ProviderData where
  freshId : String
  summary : String
  embedding : List JsNum
  size : Int
  birthtime : String
  mtime : String
deriving DecidableEq

/-- Model of `path.basename`: the component after the last separator. -/
def basename (p : String) : String :=
  (p.splitOn "/").getLastD p

/-- Model of `SemanticStore.indexFile` for a resolved absolute path `p`:
look up the existing record for the path, reuse its id (and `createdAt`)
when present and mint `d.freshId` otherwise, then upsert the freshly built
record.  The summarize/embed provider calls are represented by the
`ProviderData` argument; a thrown error (validation or provider) surfaces
as `Except.error` with the store unchanged. -/
def indexFile (st : DbState) (p : String) (d : ProviderData) : Except String DbState :=
  let existing := getByPath st p
  let id := match existing with
    | some r => r.id
    | none => d.freshId
  let createdAt := match existing with
    | some r => r.createdAt
    | none => d.birthtime
  upsert st ⟨id, ⟨id, p, basename p, d.size, createdAt, d.mtime⟩, d.summary, d.embedding⟩

/-- The id `indexFile` uses for path `p`: the existing record's id when the
path is already stored, the fresh uuid otherwise (abbreviation for the
corresponding subterm of `indexFile`). -/
def indexIdOf (st : DbState) (p : String) (d : ProviderData) : String :=
  match getByPath st p with
  | some r => r.id
  | none => d.freshId

/-- The `createdAt` value `indexFile` uses for path `p` (abbreviation for
the corresponding subterm of `indexFile`). -/
def indexCreatedAtOf (st : DbState) (p : String) (d : ProviderData) : String :=
  match getByPath st p with
  | some r => r.createdAt
  | none => d.birthtime

/-- The `files` row that a successful `indexFile` on path `p` writes. -/
def indexRowOf (st : DbState) (p : String) (d : ProviderData) : FileRow :=
  ⟨indexIdOf st p d, p, basename p, d.size, indexCreatedAtOf st p d, d.mtime, d.summary⟩

/-- One unit of indexing work: a resolved path with the provider/stat data
its processing would consume. -/
structure IndexOp where
  path : String
  data : ProviderData
deriving DecidableEq

/-- A sequence of `indexFile` calls as issued by `indexPath`: a failing call
is caught (`progress.errorFile`) and leaves the store unchanged, and the
run continues with the next file. -/
def runIndex (st : DbState) : List IndexOp → DbState
  | [] => st
  | op :: ops =>
    match indexFile st op.path op.data with
    | .ok st' => runIndex st' ops
    | .error _ => runIndex st ops

/-- Model of `SemanticStore.shouldProcessFile`: process exactly when the
resolved path has no record yet. -/
def shouldProcessFile (st : DbState) (p : String) : Bool :=
  (getByPath st p).isNone

/-- Result of `indexPath`: the final store state and the list of files that
were actually processed.  Every processed file incurs exactly one
`summarize` and one `embed` provider call plus one upsert; skipped files
incur none of the three. -/
structure IndexPathResult where
  state : DbState
  processed : List String
deriving DecidableEq

/-- Model of `SemanticStore.indexPath` over the already text-filtered
candidate list: unless `force` is set, files whose resolved path already
has a record are skipped; the remaining files are processed (batches are
sequential; the batch-internal interleaving is linearized in list order). -/
def indexPath (st : DbState) (textFiles : List String) (force : Bool)
    (env : String → ProviderData) : IndexPathResult :=
  let filesToProcess := if force then textFiles else textFiles.filter (shouldProcessFile st)
  ⟨runIndex st (filesToProcess.map (fun p => ⟨p, env p⟩)), filesToProcess⟩

/-- Freshness of the minted uuids in an operation list: none collides with
an id already stored, and operations on distinct paths use distinct ids. -/
def FreshFor (st : DbState) (ops : List IndexOp) : Prop :=
  (∀ op ∈ ops, op.data.freshId ∉ ids st) ∧
  (∀ op ∈ ops, ∀ op' ∈ ops, op.data.freshId = op'.data.freshId → op.path = op'.path)

/-- Freshness of the uuids an `indexPath` run would mint, stated on the
candidate list. -/
def FreshEnv (st : DbState) (files : List String) (env : String → ProviderData) : Prop :=
  (∀ p ∈ files, (env p).freshId ∉ ids st) ∧
  (∀ p ∈ files, ∀ q ∈ files, (env p).freshId = (env q).freshId → p = q)

/-- The invariant carried through `runIndex`: each pending operation either
uses an id not yet stored or targets a path that already has a record (in
which case its fresh id is never consulted), and fresh ids agree only on
equal paths. -/
def OpsOk (st : DbState) (ops : List IndexOp) : Prop :=
  (∀ op ∈ ops, op.data.freshId ∉ ids st ∨ (getByPath st op.path).isSome) ∧
  (∀ op ∈ ops, ∀ op' ∈ ops, op.data.freshId = op'.data.freshId → op.path = op'.path)

/-- A candidate id paired with its summary, the shape `search` hands to the
rerank provider. -/
structure IdSummary where
  id : String
  summary : String
deriving DecidableEq

/-- One scored entry of a rerank response: `{id, score}`. -/
structure RankEntry where
  id : String
  score : ℚ
deriving DecidableEq

/-- A retrieval candidate as returned by `retrieveByEmbedding`: the stored
row (the source's `rec` field; named `record` here because `rec` is a
reserved name) together with its similarity score. -/
structure ScoredCandidate where
  record : FileRow
  score : ℚ
deriving DecidableEq

/-- A `SearchResult` (`types.ts`): id, final rerank score, the original
cosine similarity, metadata, summary. -/
structure SearchResult where
  id : String
  score : ℚ
  cosineSimilarity : ℚ
  metadata : FileMeta
  summary : String
deriving DecidableEq

/-- Model of `rerank` from `nlp.ts`.  The provider's response content is
abstracted as `Option (List RankEntry)`: `some parsed` when `JSON.parse`
succeeds on it, `none` when it throws.  On success the entries are sorted
by descending score (`parsed.sort((a, b) => b.score - a.score)`, a stable
sort) and truncated to `topK`; on failure the fallback returns the first
`topK` candidates with scores `candidates.length - i`. -/
def rerank (providerOutput : Option (List RankEntry)) (candidates : List IdSummary)
    (topK : ℕ) : List RankEntry :=
  match providerOutput with
  | some parsed =>
    (parsed.mergeSort (fun a b => decide (b.score ≤ a.score))).take topK
  | none =>
    (candidates.take topK).enum.map
      (fun p => ⟨p.2.id, (candidates.length : ℚ) - (p.1 : ℚ)⟩)

/-- The JS `Map` lookup `byId.get(id)` for the map built from the filtered
candidates keyed by `c.record.id` (on duplicate keys the last entry wins). -/
def byIdGet (cands : List ScoredCandidate) (id : String) : Option ScoredCandidate :=
  cands.reverse.find? (fun c => c.record.id == id)

/-- The `results` value of `SemanticStore.search` before the final
`minScore` filter: filter the candidates by `minSimilarity`, return `[]`
when none survive, otherwise rerank and join the scored entries back to
the candidates by id, silently dropping unknown ids. -/
def joinedResults (cands : List ScoredCandidate)
    (reranker : List IdSummary → List RankEntry) (minSimilarity : ℚ) : List SearchResult :=
  let filtered := cands.filter (fun c => decide (minSimilarity ≤ c.score))
  if filtered.length = 0 then []
  else
    (reranker (filtered.map (fun c => ⟨c.record.id, c.record.summary⟩))).filterMap
      (fun r => (byIdGet filtered r.id).map
        (fun c => ⟨r.id, r.score, c.score, c.record.meta, c.record.summary⟩))

/-- Model of `SemanticStore.search` after the query embedding and candidate
retrieval: `cands` is the over-fetched candidate list, and the rerank
provider call is abstracted as the function `reranker` (in the code,
`rerank(azure, query, ·, topK)`).  Candidates below `minSimilarity` are
dropped; when none survive the search returns `[]` without reranking;
otherwise the reranked entries are joined back by id and results below
`minScore` are dropped. -/
def search (cands : List ScoredCandidate)
    (reranker : List IdSummary → List RankEntry) (minSimilarity minScore : ℚ) :
    List SearchResult :=
  let filtered := cands.filter (fun c => decide (minSimilarity ≤ c.score))
  if filtered.length = 0 then []
  else
    ((reranker (filtered.map (fun c => ⟨c.record.id, c.record.summary⟩))).filterMap
      (fun r => (byIdGet filtered r.id).map
        (fun c => ⟨r.id, r.score, c.score, c.record.meta, c.record.summary⟩))).filter
      (fun result => decide (minScore ≤ result.score))

/-! ### Helper lemmas -/

theorem sumSq_foldl (c : ℝ) (v : List ℝ) :
    v.foldl (fun s x => s + x * x) c = c + sumSq v := by
  induction v generalizing c with
  | nil => simp [sumSq]
  | cons x v ih =>
    rw [List.foldl_cons, ih]
    rw [show sumSq (x :: v) = List.foldl (fun s x => s + x * x) (0 + x * x) v from rfl,
      ih (0 + x * x)]
    ring

theorem sumSq_cons (x : ℝ) (v : List ℝ) : sumSq (x :: v) = x * x + sumSq v := by
  rw [sumSq, List.foldl_cons, sumSq_foldl]
  ring

theorem sumSq_nonneg (v : List ℝ) : 0 ≤ sumSq v := by
  induction v with
  | nil => simp [sumSq]
  | cons x v ih =>
    rw [sumSq_cons]
    exact add_nonneg (mul_self_nonneg x) ih

theorem sumSq_eq_zero_iff (v : List ℝ) : sumSq v = 0 ↔ ∀ x ∈ v, x = 0 := by
  induction v with
  | nil => simp [sumSq]
  | cons x v ih =>
    rw [sumSq_cons]
    constructor
    · intro h
      have hx : x * x = 0 ∧ sumSq v = 0 :=
        (add_eq_zero_iff_of_nonneg (mul_self_nonneg x) (sumSq_nonneg v)).1 h
      intro y hy
      rcases List.mem_cons.1 hy with rfl | hy
      · exact mul_self_eq_zero.1 hx.1
      · exact ih.1 hx.2 y hy
    · intro h
      have hx : x = 0 := h x (List.mem_cons_self x v)
      have hv : sumSq v = 0 := ih.2 (fun y hy => h y (List.mem_cons_of_mem x hy))
      rw [hx, hv]
      ring

theorem sumSq_map_div (v : List ℝ) (n : ℝ) :
    sumSq (v.map (fun x => x / n)) = sumSq v / (n * n) := by
  induction v with
  | nil => simp [sumSq]
  | cons x v ih =>
    rw [List.map_cons, sumSq_cons, sumSq_cons, ih, div_mul_div_comm, div_add_div_same]

theorem roundHalfEven_close (q : ℚ) : |(roundHalfEven q : ℚ) - q| ≤ 1/2 := by
  have h1 : (⌊q⌋ : ℚ) ≤ q := Int.floor_le q
  have h2 : q < ⌊q⌋ + 1 := Int.lt_floor_add_one q
  unfold roundHalfEven
  split_ifs with hf hg he
  · rw [abs_le]
    constructor <;> linarith
  · rw [abs_le]
    push_cast
    constructor <;> linarith
  · rw [abs_le]
    constructor <;> linarith
  · rw [abs_le]
    push_cast
    constructor <;> linarith

theorem float32Round_close {x : ℚ} (hx : |x| ≤ 1) :
    |float32Round x - x| ≤ 1/100000 := by
  unfold float32Round
  split_ifs with h0
  · rw [h0]
    norm_num
  · set g : ℤ := max (Int.log 2 |x| - 23) (-149) with hg
    have hgle : g ≤ -23 := by
      have hlog : Int.log 2 |x| ≤ 0 := by
        have h := Int.log_mono_right (b := 2) (abs_pos.2 h0) hx
        rwa [Int.log_one_right] at h
      rw [hg]
      omega
    have hgpos : (0:ℚ) < 2 ^ g := zpow_pos (by norm_num) g
    have hfac : (2:ℚ) ^ g * (roundHalfEven (x / 2 ^ g) : ℚ) - x =
        2 ^ g * ((roundHalfEven (x / 2 ^ g) : ℚ) - x / 2 ^ g) := by
      field_simp
      ring
    rw [hfac, abs_mul, abs_of_pos hgpos]
    have hb := roundHalfEven_close (x / 2 ^ g)
    calc (2:ℚ) ^ g * |(roundHalfEven (x / 2 ^ g) : ℚ) - x / 2 ^ g|
        ≤ 2 ^ g * (1/2) := by
          exact mul_le_mul_of_nonneg_left hb hgpos.le
      _ ≤ 2 ^ (-23 : ℤ) * (1/2) := by
          exact mul_le_mul_of_nonneg_right
            (zpow_le_zpow_right₀ (a := (2:ℚ)) one_le_two hgle) (by norm_num)
      _ ≤ 1/100000 := by norm_num

theorem fromFloat32Blob_toFloat32Blob (v : List ℚ) :
    fromFloat32Blob (toFloat32Blob v) = v.map float32Round := by
  rw [fromFloat32Blob, toFloat32Blob, Float32Blob.byteLength]
  simp

theorem pairwise_fst_lt_enumFrom {α : Type*} (l : List α) (n : ℕ) :
    List.Pairwise (fun p q : ℕ × α => p.1 < q.1) (l.enumFrom n) := by
  induction l generalizing n with
  | nil => simp
  | cons a l ih =>
    rw [List.enumFrom_cons]
    refine List.Pairwise.cons (fun q hq => ?_) (ih (n + 1))
    obtain ⟨i, x⟩ := q
    have h := List.mem_enumFrom hq
    omega

theorem rerank_none_pairwise (cands : List IdSummary) (topK : ℕ) :
    List.Pairwise (fun a b : RankEntry => b.score < a.score) (rerank none cands topK) := by
  rw [rerank]
  refine List.pairwise_map.mpr ((pairwise_fst_lt_enumFrom (cands.take topK) 0).imp ?_)
  intro p q h
  exact sub_lt_sub_left (by exact_mod_cast h) _

theorem rerank_pairwise (po : Option (List RankEntry)) (cands : List IdSummary) (topK : ℕ) :
    List.Pairwise (fun a b : RankEntry => b.score ≤ a.score) (rerank po cands topK) := by
  cases po with
  | none => exact (rerank_none_pairwise cands topK).imp le_of_lt
  | some parsed =>
    rw [rerank]
    have hs := @List.sorted_mergeSort RankEntry
      (fun a b : RankEntry => decide (b.score ≤ a.score))
      (fun a b c hab hbc => by
        simp only [decide_eq_true_eq] at *
        exact le_trans hbc hab)
      (fun a b => by
        simp only [Bool.or_eq_true, decide_eq_true_eq]
        exact le_total b.score a.score)
      parsed
    exact (List.Pairwise.sublist (List.take_sublist _ _) hs).imp
      (fun h => of_decide_eq_true h)

theorem ensureVectorTable_files (st : DbState) (d : ℕ) :
    (ensureVectorTable st d).files = st.files := by
  rw [ensureVectorTable]
  split_ifs <;> rfl

theorem find?_map_replace_self (l : List FileRow) (tid : String) (new : FileRow)
    (hnew : new.id = tid) (h : l.any (fun r => r.id == tid) = true) :
    (l.map (fun r => if r.id == tid then new else r)).find? (fun r => r.id == tid) =
      some new := by
  induction l with
  | nil => simp at h
  | cons r l ih =>
    rw [List.map_cons]
    by_cases hr : (r.id == tid) = true
    · rw [if_pos hr, List.find?_cons]
      simp [hnew]
    · rw [if_neg hr, List.find?_cons]
      simp only [hr]
      apply ih
      rcases List.any_eq_true.1 h with ⟨x, hx, hpx⟩
      rcases List.mem_cons.1 hx with rfl | hx
      · exact absurd hpx hr
      · exact List.any_eq_true.2 ⟨x, hx, hpx⟩

theorem find?_map_replace_other (l : List FileRow) (tid : String) (new : FileRow)
    (hnew : new.id = tid) (i : String) (hi : i ≠ tid) :
    (l.map (fun r => if r.id == tid then new else r)).find? (fun r => r.id == i) =
      l.find? (fun r => r.id == i) := by
  induction l with
  | nil => rfl
  | cons r l ih =>
    rw [List.map_cons]
    by_cases hr : (r.id == tid) = true
    · rw [if_pos hr]
      have hrid : r.id = tid := eq_of_beq hr
      have hnewi : (new.id == i) = false := by
        rw [hnew]
        exact beq_eq_false_iff_ne.2 (fun h => hi h.symm)
      have hri : (r.id == i) = false := by
        rw [hrid]
        exact beq_eq_false_iff_ne.2 (fun h => hi h.symm)
      rw [List.find?_cons, List.find?_cons]
      simp only [hnewi, hri]
      exact ih
    · rw [if_neg hr]
      rw [List.find?_cons, List.find?_cons]
      by_cases hri : (r.id == i) = true
      · simp only [hri]
      · simp only [Bool.not_eq_true] at hri
        simp only [hri]
        exact ih

theorem find?_append_new_other (l : List FileRow) (new : FileRow) (i : String)
    (hi : (new.id == i) = false) :
    (l ++ [new]).find? (fun r => r.id == i) = l.find? (fun r => r.id == i) := by
  rw [List.find?_append]
  cases h : l.find? (fun r => r.id == i) with
  | some r => rfl
  | none =>
    simp only [Option.none_or]
    rw [List.find?_cons]
    simp only [hi]
    rfl

theorem find?_append_single {α : Type*} (l : List α) (a : α) (p : α → Bool)
    (ha : p a = false) : (l ++ [a]).find? p = l.find? p := by
  rw [List.find?_append]
  cases h : l.find? p with
  | some r => rfl
  | none =>
    rw [Option.none_or, List.find?_cons]
    simp [ha]

theorem map_replace_map_eq {β : Type*} (l : List FileRow) (tid : String) (new : FileRow)
    (f : FileRow → β) (hf : ∀ x ∈ l, x.id = tid → f new = f x) :
    (l.map (fun x => if x.id == tid then new else x)).map f = l.map f := by
  rw [List.map_map]
  apply List.map_congr_left
  intro x hx
  show f (if x.id == tid then new else x) = f x
  by_cases h : (x.id == tid) = true
  · rw [if_pos h]
    exact hf x hx (eq_of_beq h)
  · rw [if_neg h]

theorem find?_path_map_replace_other (l : List FileRow) (tid : String) (new : FileRow)
    (q : String) (hnew : (new.path == q) = false)
    (hold : ∀ x ∈ l, x.id = tid → (x.path == q) = false) :
    (l.map (fun x => if x.id == tid then new else x)).find? (fun x => x.path == q) =
      l.find? (fun x => x.path == q) := by
  induction l with
  | nil => rfl
  | cons x l ih =>
    rw [List.map_cons, List.find?_cons, List.find?_cons]
    by_cases h : (x.id == tid) = true
    · have hxq : (x.path == q) = false := hold x (List.mem_cons_self x l) (eq_of_beq h)
      rw [if_pos h]
      simp only [hnew, hxq]
      exact ih (fun y hy => hold y (List.mem_cons_of_mem x hy))
    · rw [if_neg h]
      cases hxq : (x.path == q) with
      | true => simp [hxq]
      | false =>
        simp only [hxq]
        exact ih (fun y hy => hold y (List.mem_cons_of_mem x hy))

theorem find?_path_map_replace_found (l : List FileRow) (tid : String) (new : FileRow)
    (q : String) (hnew : (new.path == q) = true) (r : FileRow) (hrid : r.id = tid)
    (hfound : l.find? (fun x => x.path == q) = some r)
    (huniq : ∀ x ∈ l, x.id = tid → x = r) :
    (l.map (fun x => if x.id == tid then new else x)).find? (fun x => x.path == q) =
      some new := by
  induction l with
  | nil => simp at hfound
  | cons x l ih =>
    rw [List.map_cons, List.find?_cons]
    rw [List.find?_cons] at hfound
    cases hxq : (x.path == q) with
    | true =>
      simp only [hxq] at hfound
      have hx : x = r := Option.some.inj hfound
      rw [if_pos (by rw [hx, hrid]; exact beq_self_eq_true tid)]
      simp [hnew]
    | false =>
      simp only [hxq] at hfound
      by_cases h : (x.id == tid) = true
      · have hx : x = r := huniq x (List.mem_cons_self x l) (eq_of_beq h)
        have hr : (r.path == q) = true :=
          List.find?_some (p := fun x : FileRow => x.path == q) hfound
        rw [← hx] at hr
        rw [hxq] at hr
        exact Bool.noConfusion hr
      · rw [if_neg h]
        simp only [hxq]
        exact ih hfound (fun y hy => huniq y (List.mem_cons_of_mem x hy))

theorem find?_path_map_replace_fresh (l : List FileRow) (tid : String) (new : FileRow)
    (q : String) (hnew : (new.path == q) = true)
    (hold : ∀ x ∈ l, (x.path == q) = false)
    (hany : l.any (fun x => x.id == tid) = true) :
    (l.map (fun x => if x.id == tid then new else x)).find? (fun x => x.path == q) =
      some new := by
  induction l with
  | nil => simp at hany
  | cons x l ih =>
    rw [List.map_cons, List.find?_cons]
    by_cases h : (x.id == tid) = true
    · rw [if_pos h]
      simp [hnew]
    · rw [if_neg h]
      have hxq : (x.path == q) = false := hold x (List.mem_cons_self x l)
      simp only [hxq]
      apply ih (fun y hy => hold y (List.mem_cons_of_mem x hy))
      rcases List.any_eq_true.1 hany with ⟨y, hy, hpy⟩
      rcases List.mem_cons.1 hy with rfl | hy
      · exact absurd hpy h
      · exact List.any_eq_true.2 ⟨y, hy, hpy⟩

theorem any_id_eq_false_of_not_mem (l : List FileRow) (i : String)
    (h : i ∉ l.map FileRow.id) : (l.any fun x => x.id == i) = false := by
  rw [← Bool.not_eq_true, List.any_eq_true]
  rintro ⟨x, hx, hpx⟩
  exact h (List.mem_map.2 ⟨x, hx, eq_of_beq hpx⟩)

theorem indexFile_eq (st : DbState) (p : String) (d : ProviderData) :
    indexFile st p d = upsert st ⟨indexIdOf st p d,
      ⟨indexIdOf st p d, p, basename p, d.size, indexCreatedAtOf st p d, d.mtime⟩,
      d.summary, d.embedding⟩ := rfl

theorem indexFile_ok_files (st : DbState) (p : String) (d : ProviderData) (st' : DbState)
    (hok : indexFile st p d = .ok st') :
    st'.files =
      if st.files.any (fun x => x.id == indexIdOf st p d) then
        st.files.map (fun x => if x.id == indexIdOf st p d then indexRowOf st p d else x)
      else st.files ++ [indexRowOf st p d] := by
  rw [indexFile_eq, upsert] at hok
  split at hok
  · exact absurd hok (by simp)
  · split at hok
    · exact absurd hok (by simp)
    · injection hok with h
      rw [← h]
      rfl

theorem indexRowOf_path (st : DbState) (p : String) (d : ProviderData) :
    (indexRowOf st p d).path = p := rfl

theorem indexRowOf_id (st : DbState) (p : String) (d : ProviderData) :
    (indexRowOf st p d).id = indexIdOf st p d := rfl

theorem getByPath_mem (st : DbState) (p : String) (r : FileRow)
    (h : getByPath st p = some r) : r ∈ st.files := by
  rw [getByPath] at h
  exact List.mem_of_find?_eq_some h

theorem getByPath_path (st : DbState) (p : String) (r : FileRow)
    (h : getByPath st p = some r) : r.path = p := by
  rw [getByPath] at h
  exact eq_of_beq (List.find?_some (p := fun x : FileRow => x.path == p) h)

theorem indexFile_ok_getByPath_other (st : DbState) (p : String) (d : ProviderData)
    (st' : DbState) (hok : indexFile st p d = .ok st')
    (hids : (ids st).Nodup)
    (hfresh : getByPath st p = none → d.freshId ∉ ids st)
    (q : String) (hq : q ≠ p) :
    getByPath st' q = getByPath st q := by
  have hfiles := indexFile_ok_files st p d st' hok
  have hnewq : ((indexRowOf st p d).path == q) = false := by
    rw [indexRowOf_path]
    exact beq_eq_false_iff_ne.2 (fun h => hq h.symm)
  rw [getByPath, getByPath, hfiles]
  cases hgp : getByPath st p with
  | some rp =>
    have htid : indexIdOf st p d = rp.id := by rw [indexIdOf, hgp]
    have hrp_mem : rp ∈ st.files := getByPath_mem st p rp hgp
    have hany : (st.files.any fun x => x.id == indexIdOf st p d) = true := by
      rw [htid]
      exact List.any_eq_true.2 ⟨rp, hrp_mem, beq_self_eq_true rp.id⟩
    rw [if_pos hany]
    apply find?_path_map_replace_other _ _ _ _ hnewq
    intro x hx hxid
    have hx_eq : x = rp :=
      List.inj_on_of_nodup_map hids hx hrp_mem (by rw [hxid, htid])
    rw [hx_eq, getByPath_path st p rp hgp]
    exact beq_eq_false_iff_ne.2 (fun h => hq h.symm)
  | none =>
    have htid : indexIdOf st p d = d.freshId := by rw [indexIdOf, hgp]
    have hany : (st.files.any fun x => x.id == indexIdOf st p d) = false := by
      rw [htid]
      exact any_id_eq_false_of_not_mem _ _ (hfresh hgp)
    rw [if_neg (by rw [hany]; simp)]
    exact find?_append_single _ _ _ hnewq

theorem indexFile_ok_getByPath_target (st : DbState) (p : String) (d : ProviderData)
    (st' : DbState) (hok : indexFile st p d = .ok st')
    (hids : (ids st).Nodup) :
    getByPath st' p = some (indexRowOf st p d) := by
  have hfiles := indexFile_ok_files st p d st' hok
  have hnewp : ((indexRowOf st p d).path == p) = true := by
    rw [indexRowOf_path]
    exact beq_self_eq_true p
  rw [getByPath, hfiles]
  cases hgp : getByPath st p with
  | some rp =>
    have htid : indexIdOf st p d = rp.id := by rw [indexIdOf, hgp]
    have hrp_mem : rp ∈ st.files := getByPath_mem st p rp hgp
    have hany : (st.files.any fun x => x.id == indexIdOf st p d) = true := by
      rw [htid]
      exact List.any_eq_true.2 ⟨rp, hrp_mem, beq_self_eq_true rp.id⟩
    rw [if_pos hany]
    apply find?_path_map_replace_found _ _ _ _ hnewp rp htid.symm
    · rw [getByPath] at hgp
      exact hgp
    · intro x hx hxid
      exact List.inj_on_of_nodup_map hids hx hrp_mem (by rw [hxid, htid])
  | none =>
    have hnone : st.files.find? (fun x => x.path == p) = none := by
      rw [getByPath] at hgp
      exact hgp
    by_cases hany : (st.files.any fun x => x.id == indexIdOf st p d) = true
    · rw [if_pos hany]
      apply find?_path_map_replace_fresh _ _ _ _ hnewp _ hany
      intro x hx
      have hnp := List.find?_eq_none.1 hnone x hx
      rcases hb : (x.path == p) with _ | _
      · rfl
      · exact absurd hb hnp
    · rw [if_neg hany]
      rw [List.find?_append, hnone, Option.none_or, List.find?_cons]
      simp [hnewp]

theorem indexFile_ok_ids (st : DbState) (p : String) (d : ProviderData) (st' : DbState)
    (hok : indexFile st p d = .ok st') :
    ids st' = ids st ∨ (getByPath st p = none ∧ ids st' = ids st ++ [d.freshId]) := by
  have hfiles := indexFile_ok_files st p d st' hok
  by_cases hany : (st.files.any fun x => x.id == indexIdOf st p d) = true
  · left
    rw [ids, ids, hfiles, if_pos hany]
    apply map_replace_map_eq
    intro x hx hxid
    rw [indexRowOf_id, hxid]
  · cases hgp : getByPath st p with
    | some rp =>
      exfalso
      apply hany
      have htid : indexIdOf st p d = rp.id := by rw [indexIdOf, hgp]
      rw [htid]
      exact List.any_eq_true.2 ⟨rp, getByPath_mem st p rp hgp, beq_self_eq_true rp.id⟩
    | none =>
      right
      refine ⟨rfl, ?_⟩
      rw [ids, ids, hfiles, if_neg hany, List.map_append]
      have htid : indexIdOf st p d = d.freshId := by rw [indexIdOf, hgp]
      rw [List.map_singleton]
      rw [show FileRow.id (indexRowOf st p d) = d.freshId from by rw [indexRowOf_id, htid]]

theorem indexFile_ok_paths (st : DbState) (p : String) (d : ProviderData) (st' : DbState)
    (hok : indexFile st p d = .ok st')
    (hids : (ids st).Nodup)
    (hfresh : getByPath st p = none → d.freshId ∉ ids st) :
    allPaths st' = allPaths st ∨
      (getByPath st p = none ∧ allPaths st' = allPaths st ++ [p]) := by
  have hfiles := indexFile_ok_files st p d st' hok
  cases hgp : getByPath st p with
  | some rp =>
    left
    have htid : indexIdOf st p d = rp.id := by rw [indexIdOf, hgp]
    have hrp_mem : rp ∈ st.files := getByPath_mem st p rp hgp
    have hany : (st.files.any fun x => x.id == indexIdOf st p d) = true := by
      rw [htid]
      exact List.any_eq_true.2 ⟨rp, hrp_mem, beq_self_eq_true rp.id⟩
    rw [allPaths, allPaths, hfiles, if_pos hany]
    apply map_replace_map_eq
    intro x hx hxid
    have hx_eq : x = rp :=
      List.inj_on_of_nodup_map hids hx hrp_mem (by rw [hxid, htid])
    rw [hx_eq, indexRowOf_path]
    exact (getByPath_path st p rp hgp).symm
  | none =>
    right
    have htid : indexIdOf st p d = d.freshId := by rw [indexIdOf, hgp]
    have hany : (st.files.any fun x => x.id == indexIdOf st p d) = false := by
      rw [htid]
      exact any_id_eq_false_of_not_mem _ _ (hfresh hgp)
    refine ⟨rfl, ?_⟩
    rw [allPaths, allPaths, hfiles, if_neg (by rw [hany]; simp), List.map_append,
      List.map_singleton]
    rw [show FileRow.path (indexRowOf st p d) = p from rfl]

theorem runIndex_master (ops : List IndexOp) (st : DbState)
    (hInv : Inv st) (hOk : OpsOk st ops) :
    Inv (runIndex st ops) ∧
    (∀ p r, getByPath st p = some r →
      ∃ r', getByPath (runIndex st ops) p = some r' ∧ r'.id = r.id) ∧
    (∀ p r, getByPath st p = some r → (∀ op ∈ ops, op.path ≠ p) →
      getByPath (runIndex st ops) p = some r) := by
  induction ops generalizing st with
  | nil => exact ⟨hInv, fun p r h => ⟨r, h, rfl⟩, fun p r h _ => h⟩
  | cons op rest ih =>
    cases hn : indexFile st op.path op.data with
    | error e =>
      simp only [runIndex, hn]
      have hOk' : OpsOk st rest :=
        ⟨fun o ho => hOk.1 o (List.mem_cons_of_mem op ho),
         fun o ho o' ho' => hOk.2 o (List.mem_cons_of_mem op ho) o'
           (List.mem_cons_of_mem op ho')⟩
      obtain ⟨a, b, c⟩ := ih st hInv hOk'
      exact ⟨a, b, fun p r h hall => c p r h (fun o ho => hall o (List.mem_cons_of_mem op ho))⟩
    | ok st1 =>
      simp only [runIndex, hn]
      have hids : (ids st).Nodup := hInv.1
      have hfresh : getByPath st op.path = none → op.data.freshId ∉ ids st := by
        intro hnone
        rcases hOk.1 op (List.mem_cons_self op rest) with h | h
        · exact h
        · rw [hnone] at h
          simp at h
      have hInv1 : Inv st1 := by
        constructor
        · rcases indexFile_ok_ids st op.path op.data st1 hn with h | ⟨hnone, h⟩
          · rw [h]
            exact hInv.1
          · rw [h, List.nodup_append]
            refine ⟨hInv.1, List.nodup_singleton _, ?_⟩
            intro a ha hb
            rw [List.mem_singleton] at hb
            subst hb
            exact (hfresh hnone) ha
        · rcases indexFile_ok_paths st op.path op.data st1 hn hids hfresh with h | ⟨hnone, h⟩
          · rw [h]
            exact hInv.2
          · rw [h, List.nodup_append]
            refine ⟨hInv.2, List.nodup_singleton _, ?_⟩
            intro a ha hb
            rw [List.mem_singleton] at hb
            subst hb
            rw [allPaths] at ha
            obtain ⟨x, hx, hxp⟩ := List.mem_map.1 ha
            have hno := List.find?_eq_none.1 (by rw [getByPath] at hnone; exact hnone) x hx
            exact hno (by rw [hxp]; exact beq_self_eq_true op.path)
      have hOk1 : OpsOk st1 rest := by
        constructor
        · intro o ho
          by_cases hpp : o.path = op.path
          · right
            rw [hpp, indexFile_ok_getByPath_target st op.path op.data st1 hn hids]
            rfl
          · rcases hOk.1 o (List.mem_cons_of_mem op ho) with h | h
            · by_cases hff : o.data.freshId = op.data.freshId
              · exact absurd (hOk.2 o (List.mem_cons_of_mem op ho) op
                  (List.mem_cons_self op rest) hff) hpp
              · left
                rcases indexFile_ok_ids st op.path op.data st1 hn with hi | ⟨_, hi⟩
                · rw [hi]
                  exact h
                · rw [hi]
                  intro hmem
                  rcases List.mem_append.1 hmem with hm | hm
                  · exact h hm
                  · rw [List.mem_singleton] at hm
                    exact hff hm
            · right
              rw [indexFile_ok_getByPath_other st op.path op.data st1 hn hids hfresh
                o.path hpp]
              exact h
        · intro o ho o' ho'
          exact hOk.2 o (List.mem_cons_of_mem op ho) o' (List.mem_cons_of_mem op ho')
      obtain ⟨a, b, c⟩ := ih st1 hInv1 hOk1
      refine ⟨a, ?_, ?_⟩
      · intro p r h
        by_cases hp : p = op.path
        · subst hp
          have ht := indexFile_ok_getByPath_target st op.path op.data st1 hn hids
          have hid : (indexRowOf st op.path op.data).id = r.id := by
            rw [indexRowOf_id, indexIdOf, h]
          obtain ⟨r', hr', hrid'⟩ := b op.path (indexRowOf st op.path op.data) ht
          exact ⟨r', hr', by rw [hrid', hid]⟩
        · have heq := indexFile_ok_getByPath_other st op.path op.data st1 hn hids hfresh p hp
          exact b p r (heq.trans h)
      · intro p r h hall
        have hnp : op.path ≠ p := hall op (List.mem_cons_self op rest)
        have heq := indexFile_ok_getByPath_other st op.path op.data st1 hn hids hfresh p
          (fun hc => hnp hc.symm)
        exact c p r (heq.trans h) (fun o ho => hall o (List.mem_cons_of_mem op ho))

theorem filter_path_length_le (l : List FileRow)
    (hnd : (l.map FileRow.path).Nodup) (p : String) :
    (l.filter (fun r => r.path == p)).length ≤ 1 := by
  induction l with
  | nil => simp
  | cons r l ih =>
    rw [List.map_cons, List.nodup_cons] at hnd
    rw [List.filter_cons]
    by_cases h : (r.path == p) = true
    · rw [if_pos h]
      have hnil : l.filter (fun r => r.path == p) = [] := by
        rw [List.filter_eq_nil_iff]
        intro x hx hpx
        apply hnd.1
        rw [show r.path = x.path from (eq_of_beq h).trans (eq_of_beq hpx).symm]
        exact List.mem_map.2 ⟨x, hx, rfl⟩
      rw [hnil]
      simp
    · rw [if_neg h]
      exact ih hnd.2

/-! ### Claim theorems -/

/-- C10: `cosine` is total on every pair of lists: it returns the dot
product of the first `min(a.length, b.length)` components (extra
components of the longer vector are ignored rather than causing an error
or out-of-bounds access), and it is symmetric. -/
theorem cosine_total_prefix_symm (a b : List ℚ) :
    cosine a b = ∑ i ∈ Finset.range (min a.length b.length), a.getD i 0 * b.getD i 0 ∧
    cosine a b = cosine b a := by
  constructor
  · induction a generalizing b with
    | nil => simp [cosine]
    | cons x a ih =>
      cases b with
      | nil => simp [cosine]
      | cons y b =>
        rw [cosine, List.zipWith_cons_cons, List.sum_cons, ← cosine, ih b]
        rw [List.length_cons, List.length_cons, Nat.succ_min_succ,
          Finset.sum_range_succ']
        simp [add_comm]
  · rw [cosine, cosine, List.zipWith_comm_of_comm _ mul_comm]

/-- C7: when the rerank provider's output is not parseable as JSON,
`rerank` recovers locally: it returns exactly the first `topK` input
candidates (in input order) with strictly descending scores, and no error
escapes to the caller. -/
theorem rerank_fallback_spec (cands : List IdSummary) (topK : ℕ) :
    (rerank none cands topK).map RankEntry.id = (cands.take topK).map IdSummary.id ∧
    List.Pairwise (fun a b : RankEntry => b.score < a.score) (rerank none cands topK) := by
  constructor
  · rw [rerank, List.map_map]
    rw [show (RankEntry.id ∘ fun p : ℕ × IdSummary =>
        (⟨p.2.id, (cands.length : ℚ) - (p.1 : ℚ)⟩ : RankEntry)) =
        (IdSummary.id ∘ Prod.snd) from rfl]
    rw [← List.map_map, List.enum_map_snd]
  · exact rerank_none_pairwise cands topK

/-- C8: for a vector with a non-zero component, `normalize` returns a
vector of Euclidean norm exactly 1 (sum of squares 1, in the idealized
real model); for the all-zero vector the `|| 1` norm floor avoids the
division by zero and the vector is returned unchanged. -/
theorem normalize_spec (v : List ℝ) :
    ((∃ x ∈ v, x ≠ 0) → sumSq (normalize v) = 1) ∧
    ((∀ x ∈ v, x = 0) → normalize v = v) := by
  constructor
  · rintro ⟨x, hx, hx0⟩
    have hpos : 0 < sumSq v :=
      lt_of_le_of_ne (sumSq_nonneg v)
        (fun h => hx0 ((sumSq_eq_zero_iff v).1 h.symm x hx))
    have hs : Real.sqrt (sumSq v) ≠ 0 := ne_of_gt (Real.sqrt_pos.2 hpos)
    rw [normalize, if_neg hs, sumSq_map_div, Real.mul_self_sqrt hpos.le,
      div_self hpos.ne']
  · intro h
    have h0 : sumSq v = 0 := (sumSq_eq_zero_iff v).2 h
    rw [normalize, h0, Real.sqrt_zero, if_pos rfl]
    simp

/-- Witness for C8: `[3, 4]` normalizes to a unit vector, and the all-zero
vector `[0, 0]` is returned unchanged. -/
theorem normalize_spec_witness :
    ((∃ x ∈ [(3:ℝ), 4], x ≠ 0) ∧ sumSq (normalize [(3:ℝ), 4]) = 1) ∧
    ((∀ x ∈ [(0:ℝ), 0], x = 0) ∧ normalize [(0:ℝ), 0] = [0, 0]) := by
  have h1 : ∃ x ∈ [(3:ℝ), 4], x ≠ 0 := ⟨3, by norm_num, by norm_num⟩
  have h2 : ∀ x ∈ [(0:ℝ), 0], x = 0 := by
    intro x hx
    rcases List.mem_cons.1 hx with rfl | hx
    · rfl
    · rcases List.mem_cons.1 hx with rfl | hx
      · rfl
      · simp at hx
  exact ⟨⟨h1, (normalize_spec [(3:ℝ), 4]).1 h1⟩, ⟨h2, (normalize_spec [(0:ℝ), 0]).2 h2⟩⟩

/-- C9: for an embedding vector (components bounded by 1 in absolute
value, as the L2-normalized embeddings stored by this system are),
encoding with `toFloat32Blob` and decoding with `fromFloat32Blob` yields a
vector of the same length whose components equal the originals within
single-precision tolerance (the error is at most `2^-24 < 1e-5`). -/
theorem float32_roundtrip_spec (v : List ℚ) (hv : ∀ x ∈ v, |x| ≤ 1) :
    (fromFloat32Blob (toFloat32Blob v)).length = v.length ∧
    List.Forall₂ (fun y x => |y - x| ≤ 1/100000) (fromFloat32Blob (toFloat32Blob v)) v := by
  rw [fromFloat32Blob_toFloat32Blob]
  constructor
  · simp
  · induction v with
    | nil => simp
    | cons x v ih =>
      rw [List.map_cons]
      exact List.Forall₂.cons (float32Round_close (hv x (List.mem_cons_self x v)))
        (ih (fun y hy => hv y (List.mem_cons_of_mem x hy)))

/-- C1: every result of `search` comes from a candidate whose raw cosine
similarity meets `minSimilarity`; the search output only depends on the
candidates that survive the similarity filter (filtering happens before
reranking); and when no candidate survives, the result is `[]` for every
possible reranker — the rerank provider cannot influence (and is not
consulted for) the empty case. -/
theorem search_minSimilarity_spec (cands : List ScoredCandidate)
    (reranker : List IdSummary → List RankEntry) (ms msc : ℚ) :
    (∀ r ∈ search cands reranker ms msc, ms ≤ r.cosineSimilarity) ∧
    (search cands reranker ms msc =
      search (cands.filter (fun c => decide (ms ≤ c.score))) reranker ms msc) ∧
    (cands.filter (fun c => decide (ms ≤ c.score)) = [] →
      ∀ g, search cands g ms msc = []) := by
  refine ⟨?_, ?_, ?_⟩
  · intro r hr
    simp only [search] at hr
    split_ifs at hr with h
    · simp at hr
    · have hr1 := (List.mem_filter.1 hr).1
      obtain ⟨e, _, hfe⟩ := List.mem_filterMap.1 hr1
      obtain ⟨c, hc, hcr⟩ := Option.map_eq_some'.1 hfe
      have hcmem : c ∈ cands.filter (fun c => decide (ms ≤ c.score)) := by
        rw [byIdGet] at hc
        exact List.mem_reverse.1 (List.mem_of_find?_eq_some hc)
      have hms : ms ≤ c.score := of_decide_eq_true (List.mem_filter.1 hcmem).2
      rw [← hcr]
      exact hms
  · simp only [search, List.filter_filter, Bool.and_self]
  · intro h g
    simp [search, h]

/-- Witness for C1: with a single candidate of similarity 1/2 and threshold
3/4, the filtered set is empty and `search` returns `[]` for an arbitrary
reranker. -/
theorem search_minSimilarity_witness :
    ([⟨⟨"id1", "/a", "a.md", 1, "c", "m", "s"⟩, (1:ℚ)/2⟩] :
        List ScoredCandidate).filter (fun c => decide ((3:ℚ)/4 ≤ c.score)) = [] ∧
    search [⟨⟨"id1", "/a", "a.md", 1, "c", "m", "s"⟩, (1:ℚ)/2⟩]
      (fun _ => [⟨"id1", 99⟩]) (3/4) 0 = [] := by
  have h : ([⟨⟨"id1", "/a", "a.md", 1, "c", "m", "s"⟩, (1:ℚ)/2⟩] :
      List ScoredCandidate).filter (fun c => decide ((3:ℚ)/4 ≤ c.score)) = [] := by
    norm_num [List.filter]
  exact ⟨h, (search_minSimilarity_spec _ (fun _ => [⟨"id1", 99⟩]) (3/4) 0).2.2 h
    (fun _ => [⟨"id1", 99⟩])⟩

/-- C2: a result is in the final output of `search` exactly when it is in
the joined result list and its final score is at least `minScore` — the
score floor is applied inclusively to the joined results. -/
theorem search_minScore_spec (cands : List ScoredCandidate)
    (reranker : List IdSummary → List RankEntry) (ms msc : ℚ) (r : SearchResult) :
    r ∈ search cands reranker ms msc ↔
      r ∈ joinedResults cands reranker ms ∧ msc ≤ r.score := by
  simp only [search, joinedResults]
  split_ifs with h
  · simp
  · rw [List.mem_filter]
    simp

/-- Witness for C2: a joined result with score exactly 60 is kept under
`minScore = 60` (the threshold is inclusive). -/
theorem search_minScore_witness :
    (⟨"a", 60, 9/10, ⟨"a", "/a", "a.md", 1, "c", "m"⟩, "sa"⟩ : SearchResult) ∈
      search [⟨⟨"a", "/a", "a.md", 1, "c", "m", "sa"⟩, 9/10⟩]
        (fun _ => [⟨"a", 60⟩]) 0 60 := by
  refine (search_minScore_spec _ _ 0 60 _).mpr ⟨?_, by norm_num⟩
  norm_num [joinedResults, byIdGet, List.filter, List.filterMap, FileRow.meta]

/-- C3: the list returned by `search` is ordered by descending final
score, whatever scored entries (in whatever order) the rerank provider
returns — including the `none` case where the malformed-output fallback
scoring is used. -/
theorem search_sorted_spec (cands : List ScoredCandidate) (po : Option (List RankEntry))
    (topK : ℕ) (ms msc : ℚ) :
    List.Pairwise (fun a b : SearchResult => b.score ≤ a.score)
      (search cands (fun cs => rerank po cs topK) ms msc) := by
  simp only [search]
  split_ifs with h
  · exact List.Pairwise.nil
  · refine List.Pairwise.filter _ (List.pairwise_filterMap.mpr ?_)
    refine (rerank_pairwise po _ topK).imp ?_
    intro e e' hle y hy y' hy'
    obtain ⟨c, _, hcy⟩ := Option.mem_map.1 hy
    obtain ⟨c', _, hcy'⟩ := Option.mem_map.1 hy'
    rw [← hcy, ← hcy']
    exact hle

/-- Witness for C9 at the concrete embedding `[1, -1/2, 0]`. -/
theorem float32_roundtrip_witness :
    (∀ x ∈ [(1:ℚ), -1/2, 0], |x| ≤ 1) ∧
    List.Forall₂ (fun y x => |y - x| ≤ 1/100000)
      (fromFloat32Blob (toFloat32Blob [(1:ℚ), -1/2, 0])) [(1:ℚ), -1/2, 0] := by
  have h : ∀ x ∈ [(1:ℚ), -1/2, 0], |x| ≤ 1 := by
    intro x hx
    fin_cases hx <;> rw [abs_le] <;> constructor <;> norm_num
  exact ⟨h, (float32_roundtrip_spec _ h).2⟩

/-- C4 counterexample: an embedding containing the non-finite value
`Infinity` passes `upsert`'s validation — the call succeeds instead of
raising the claimed error, because the check `!isNaN(n)` rejects only
`NaN` and `isNaN(Infinity)` is false. -/
theorem upsert_nonfinite_counterexample :
    (JsNum.posInf.isFinite = false) ∧
    (upsert ⟨[], none, [], false⟩
      ⟨"id0", ⟨"id0", "/a.md", "a.md", 1, "t0", "t1"⟩, "s", [JsNum.posInf]⟩).isOk = true := by
  exact ⟨rfl, rfl⟩

/-- C4 (amended): `upsert` raises an error exactly for an empty embedding
or one containing `NaN` (infinite values pass the validation); the check
precedes every write, so an error leaves the store untouched; otherwise
`upsert` inserts or replaces the `files` row keyed by the record's id and
leaves rows with other ids unchanged. -/
theorem upsert_validation_spec (st : DbState) (rec : FileRecord) :
    (rec.embedding = [] ∨ (∃ n ∈ rec.embedding, n.isNaN = true) →
      ∃ msg, upsert st rec = .error msg) ∧
    (rec.embedding ≠ [] → (∀ n ∈ rec.embedding, n.isNaN = false) →
      ∃ st', upsert st rec = .ok st' ∧
        getById st' rec.id = some (rowOfRecord rec) ∧
        (∀ i, i ≠ rec.id → getById st' i = getById st i)) := by
  constructor
  · intro h
    rw [upsert]
    split_ifs with h1 h2
    · exact ⟨_, rfl⟩
    · exact ⟨_, rfl⟩
    · exfalso
      rcases h with he | ⟨n, hn, hnan⟩
      · exact h1 (by rw [he]; rfl)
      · have hall : rec.embedding.all (fun n => !n.isNaN) = true := by
          revert h2
          cases rec.embedding.all (fun n => !n.isNaN) <;> simp
        have hx := List.all_eq_true.1 hall n hn
        rw [hnan] at hx
        simp at hx
  · intro hne hnn
    have h1 : ¬ (rec.embedding.length = 0) := by
      simpa [List.length_eq_zero] using hne
    have hall : rec.embedding.all (fun n => !n.isNaN) = true :=
      List.all_eq_true.2 (fun n hn => by rw [hnn n hn]; rfl)
    rw [upsert, if_neg h1, if_neg (by rw [hall]; simp)]
    refine ⟨_, rfl, ?_, ?_⟩
    · rw [getById]
      dsimp only
      split_ifs with h
      · exact find?_map_replace_self st.files rec.id (rowOfRecord rec) rfl h
      · rw [List.find?_append]
        have hnone : st.files.find? (fun r => r.id == rec.id) = none := by
          rw [List.find?_eq_none]
          intro x hx
          simp only [Bool.not_eq_true]
          rcases hb : (x.id == rec.id) with _ | _
          · rfl
          · have hany : (st.files.any fun r => r.id == rec.id) = true :=
              List.any_eq_true.2 ⟨x, hx, hb⟩
            exact absurd hany h
        rw [hnone]
        simp only [Option.none_or]
        exact List.find?_cons_of_pos _ (beq_self_eq_true rec.id)
    · intro i hi
      rw [getById, getById]
      dsimp only
      split_ifs with h
      · exact find?_map_replace_other st.files rec.id (rowOfRecord rec) rfl i
          (fun hcontra => hi hcontra)
      · exact find?_append_new_other st.files (rowOfRecord rec) i
          (beq_eq_false_iff_ne.2 (fun hcontra => hi hcontra.symm))

/-- Witness for C4: the empty embedding is rejected with an error, and a
record with a valid embedding is stored and retrievable by id while other
ids are unaffected. -/
theorem upsert_validation_witness :
    (∃ msg, upsert ⟨[], none, [], false⟩
      ⟨"e0", ⟨"e0", "/e.md", "e.md", 1, "t0", "t1"⟩, "s", []⟩ = .error msg) ∧
    (∃ st', upsert ⟨[], none, [], false⟩
      ⟨"id0", ⟨"id0", "/a.md", "a.md", 1, "t0", "t1"⟩, "s", [JsNum.finite 1]⟩ = .ok st' ∧
      getById st' "id0" =
        some (rowOfRecord ⟨"id0", ⟨"id0", "/a.md", "a.md", 1, "t0", "t1"⟩, "s",
          [JsNum.finite 1]⟩) ∧
      (∀ i, i ≠ "id0" → getById st' i = getById ⟨[], none, [], false⟩ i)) := by
  constructor
  · exact (upsert_validation_spec ⟨[], none, [], false⟩ _).1 (Or.inl rfl)
  · exact (upsert_validation_spec ⟨[], none, [], false⟩ _).2 (by simp)
      (fun n hn => by rcases List.mem_singleton.1 hn with rfl; rfl)

/-- C5: over any sequence of `indexFile` calls whose minted uuids are fresh
(no collision with stored ids, and distinct paths get distinct uuids — how
`uuidv4` behaves), a well-formed store keeps at most one record per
distinct resolved path, and a path that already had a record keeps its id
across re-indexing; this holds whether the calls come from a forced or an
unforced `indexPath` run, since both delegate to the same `indexFile`. -/
theorem indexFile_identity_spec (st : DbState) (ops : List IndexOp)
    (hInv : Inv st) (hFresh : FreshFor st ops) :
    (∀ p, ((runIndex st ops).files.filter (fun r => r.path == p)).length ≤ 1) ∧
    (∀ p r, getByPath st p = some r →
      ∃ r', getByPath (runIndex st ops) p = some r' ∧ r'.id = r.id) := by
  have hOk : OpsOk st ops := ⟨fun o ho => Or.inl (hFresh.1 o ho), hFresh.2⟩
  obtain ⟨hInv', hpres, _⟩ := runIndex_master ops st hInv hOk
  exact ⟨fun p => filter_path_length_le _ hInv'.2 p, hpres⟩

/-- Witness for C5: a store holding one record for `/a.md` under id `id0`;
re-indexing the same path with a fresh uuid leaves one record per path and
the id still `id0`. -/
theorem indexFile_identity_witness :
    Inv ⟨[⟨"id0", "/a.md", "a.md", 1, "t0", "t1", "s0"⟩], none, [], false⟩ ∧
    FreshFor ⟨[⟨"id0", "/a.md", "a.md", 1, "t0", "t1", "s0"⟩], none, [], false⟩
      [⟨"/a.md", ⟨"fresh1", "s1", [JsNum.finite 1], 2, "t2", "t3"⟩⟩] ∧
    ((runIndex ⟨[⟨"id0", "/a.md", "a.md", 1, "t0", "t1", "s0"⟩], none, [], false⟩
        [⟨"/a.md", ⟨"fresh1", "s1", [JsNum.finite 1], 2, "t2", "t3"⟩⟩]).files.filter
          (fun r => r.path == "/a.md")).length ≤ 1 ∧
    (∃ r', getByPath (runIndex ⟨[⟨"id0", "/a.md", "a.md", 1, "t0", "t1", "s0"⟩], none, [], false⟩
        [⟨"/a.md", ⟨"fresh1", "s1", [JsNum.finite 1], 2, "t2", "t3"⟩⟩]) "/a.md" = some r'
      ∧ r'.id = "id0") := by
  have hInv : Inv (⟨[⟨"id0", "/a.md", "a.md", 1, "t0", "t1", "s0"⟩], none, [], false⟩ :
      DbState) := by
    exact ⟨by simp [ids], by simp [allPaths]⟩
  have hFresh : FreshFor
      (⟨[⟨"id0", "/a.md", "a.md", 1, "t0", "t1", "s0"⟩], none, [], false⟩ : DbState)
      [⟨"/a.md", ⟨"fresh1", "s1", [JsNum.finite 1], 2, "t2", "t3"⟩⟩] := by
    constructor
    · intro o ho
      rw [List.mem_singleton] at ho
      subst ho
      simp [ids]
    · intro o ho o' ho'
      rw [List.mem_singleton] at ho
      rw [List.mem_singleton] at ho'
      subst ho
      subst ho'
      intro _
      rfl
  have hspec := indexFile_identity_spec _ _ hInv hFresh
  have hp : getByPath
      (⟨[⟨"id0", "/a.md", "a.md", 1, "t0", "t1", "s0"⟩], none, [], false⟩ : DbState)
      "/a.md" = some ⟨"id0", "/a.md", "a.md", 1, "t0", "t1", "s0"⟩ := by
    rfl
  exact ⟨hInv, hFresh, hspec.1 "/a.md", hspec.2 "/a.md" _ hp⟩

/-- C6: without the force flag, `indexPath` skips every candidate file
whose resolved path already has a record: the file is absent from the
processed list — so it triggers no summarize call, no embed call and no
upsert — and the stored record for that path is unchanged (same row) after
the whole run. -/
theorem indexPath_skip_spec (st : DbState) (textFiles : List String)
    (env : String → ProviderData) (p : String) (r : FileRow)
    (hInv : Inv st) (hFresh : FreshEnv st textFiles env)
    (hp : getByPath st p = some r) :
    p ∉ (indexPath st textFiles false env).processed ∧
    getByPath (indexPath st textFiles false env).state p = some r := by
  have hproc : (indexPath st textFiles false env).processed
      = textFiles.filter (shouldProcessFile st) := by
    simp [indexPath]
  have hstate : (indexPath st textFiles false env).state
      = runIndex st ((textFiles.filter (shouldProcessFile st)).map
        (fun q => ⟨q, env q⟩)) := by
    simp [indexPath]
  constructor
  · rw [hproc]
    intro hmem
    have hsp := (List.mem_filter.1 hmem).2
    rw [shouldProcessFile, hp] at hsp
    simp at hsp
  · rw [hstate]
    have hOk : OpsOk st ((textFiles.filter (shouldProcessFile st)).map
        (fun q => (⟨q, env q⟩ : IndexOp))) := by
      constructor
      · intro o ho
        obtain ⟨q, hq, rfl⟩ := List.mem_map.1 ho
        exact Or.inl (hFresh.1 q (List.mem_of_mem_filter hq))
      · intro o ho o' ho'
        obtain ⟨q, hq, rfl⟩ := List.mem_map.1 ho
        obtain ⟨q', hq', rfl⟩ := List.mem_map.1 ho'
        intro hff
        exact hFresh.2 q (List.mem_of_mem_filter hq) q' (List.mem_of_mem_filter hq') hff
    obtain ⟨_, _, hexact⟩ := runIndex_master _ st hInv hOk
    apply hexact p r hp
    intro o ho
    obtain ⟨q, hq, rfl⟩ := List.mem_map.1 ho
    intro hqp
    have hqp' : q = p := hqp
    have hsp := (List.mem_filter.1 hq).2
    rw [shouldProcessFile, hqp', hp] at hsp
    simp at hsp

/-- Witness for C6: with `/a.md` already indexed under `id0` and the
candidate list `[/a.md, /b.md]`, the unforced run skips `/a.md` and leaves
its record unchanged. -/
theorem indexPath_skip_witness :
    Inv ⟨[⟨"id0", "/a.md", "a.md", 1, "t0", "t1", "s0"⟩], none, [], false⟩ ∧
    FreshEnv ⟨[⟨"id0", "/a.md", "a.md", 1, "t0", "t1", "s0"⟩], none, [], false⟩
      ["/a.md", "/b.md"]
      (fun q => if q == "/b.md" then ⟨"fresh2", "s2", [JsNum.finite 1], 3, "t4", "t5"⟩
        else ⟨"fresh3", "s3", [JsNum.finite 1], 3, "t4", "t5"⟩) ∧
    ("/a.md" ∉ (indexPath ⟨[⟨"id0", "/a.md", "a.md", 1, "t0", "t1", "s0"⟩], none, [], false⟩
      ["/a.md", "/b.md"]
      false
      (fun q => if q == "/b.md" then ⟨"fresh2", "s2", [JsNum.finite 1], 3, "t4", "t5"⟩
        else ⟨"fresh3", "s3", [JsNum.finite 1], 3, "t4", "t5"⟩)).processed ∧
    getByPath (indexPath ⟨[⟨"id0", "/a.md", "a.md", 1, "t0", "t1", "s0"⟩], none, [], false⟩
      ["/a.md", "/b.md"]
      false
      (fun q => if q == "/b.md" then ⟨"fresh2", "s2", [JsNum.finite 1], 3, "t4", "t5"⟩
        else ⟨"fresh3", "s3", [JsNum.finite 1], 3, "t4", "t5"⟩)).state "/a.md" =
      some ⟨"id0", "/a.md", "a.md", 1, "t0", "t1", "s0"⟩) := by
  have hInv : Inv (⟨[⟨"id0", "/a.md", "a.md", 1, "t0", "t1", "s0"⟩], none, [], false⟩ :
      DbState) := ⟨by simp [ids], by simp [allPaths]⟩
  have hFresh : FreshEnv
      (⟨[⟨"id0", "/a.md", "a.md", 1, "t0", "t1", "s0"⟩], none, [], false⟩ : DbState)
      ["/a.md", "/b.md"]
      (fun q => if q == "/b.md" then ⟨"fresh2", "s2", [JsNum.finite 1], 3, "t4", "t5"⟩
        else ⟨"fresh3", "s3", [JsNum.finite 1], 3, "t4", "t5"⟩) := by
    constructor
    · intro q hq
      fin_cases hq <;> simp [ids]
    · intro q hq q' hq'
      fin_cases hq <;> fin_cases hq' <;> simp
  have hp : getByPath
      (⟨[⟨"id0", "/a.md", "a.md", 1, "t0", "t1", "s0"⟩], none, [], false⟩ : DbState)
      "/a.md" = some ⟨"id0", "/a.md", "a.md", 1, "t0", "t1", "s0"⟩ := by
    rfl
  exact ⟨hInv, hFresh, indexPath_skip_spec _ _ _ _ _ hInv hFresh hp⟩

end SemanticSearch
